import Mathlib

/-!
Verification of the taxonomy search pipeline in `get_sentences.py`.

Python strings are modelled as `List Char` (sequences of Unicode code
points), XML element trees (`xml.etree.ElementTree` elements) as the
inductive `Elem`, and the functions of the source file as Lean functions
over these types.  External effects (the HTTP call performed by
`requests.get` inside `search`, and the XML parser
`ElementTree.fromstring`) are modelled by a provider function that maps a
query string to either a failure status code or a parse outcome.
-/

/-- Python strings, modelled as lists of Unicode code points. -/
abbrev Str : Type := List Char

/-- Coerce a Lean string literal to the `Str` model type. -/
def str (s : String) : Str := s.toList

/-- An `xml.etree.ElementTree` element: a tag, optional text (the text
before the first child), a list of child elements in document order, and
optional tail text (the text between this element's end tag and the next
sibling, owned by the parent in ElementTree's data model). -/
inductive Elem : Type where
  | mk (tag : Str) (text : Option Str) (children : List Elem) (tail : Option Str)

/-- The element's tag (`elem.tag`). -/
def Elem.tag : Elem → Str
  | .mk t _ _ _ => t

/-- The element's text (`elem.text`), `none` modelling Python `None`. -/
def Elem.text : Elem → Option Str
  | .mk _ x _ _ => x

/-- The element's children, in document order (iteration over `elem`). -/
def Elem.children : Elem → List Elem
  | .mk _ _ c _ => c

/-- The element's tail text (`elem.tail`), `none` modelling Python `None`. -/
def Elem.tail : Elem → Option Str
  | .mk _ _ _ t => t

mutual
/-- `gettext` of `get_sentences.py` (lines 63–75): start from
`elem.text or ""` and, for each child in order, append the child's
`gettext` and then the child's tail when it is truthy.  Appending an
empty tail is the identity, so the truthiness test on `subelem.tail`
is modelled by appending `tail.getD []`. -/
def gettext : Elem → Str
  | .mk _ text children _ => gettextLoop (text.getD []) children

/-- The accumulating `for subelem in elem` loop inside `gettext`. -/
def gettextLoop : Str → List Elem → Str
  | acc, [] => acc
  | acc, c :: rest => gettextLoop (acc ++ gettext c ++ c.tail.getD []) rest
end

mutual
/-- `elem.iter()`: the element followed by all its descendants in
document (depth-first, preorder) order. -/
def iterAll : Elem → List Elem
  | .mk t x children tl => .mk t x children tl :: iterAllList children

/-- `iter` extended over a list of sibling elements. -/
def iterAllList : List Elem → List Elem
  | [] => []
  | c :: rest => iterAll c ++ iterAllList rest
end

/-- `elem.iter(tag)`: the elements of `elem.iter()` whose tag is `t`,
in document order. -/
def iterTag (t : Str) (e : Elem) : List Elem :=
  (iterAll e).filter (fun d => d.tag = t)

/-- Model of the Python standard library's `html.unescape`, restricted to
the four XML named character references `&amp;` `&lt;` `&gt;` `&quot;`
(with semicolon).  The real function also converts numeric references and
the full HTML5 named-reference table; every theorem below applies this
model only to strings in the modelled fragment, where the two functions
agree. -/
def htmlUnescape : Str → Str
  | [] => []
  | c :: rest =>
    let fallback := htmlUnescape rest
    if c = '&' then
      match rest with
      | 'a' :: 'm' :: 'p' :: ';' :: r => '&' :: htmlUnescape r
      | 'l' :: 't' :: ';' :: r => '<' :: htmlUnescape r
      | 'g' :: 't' :: ';' :: r => '>' :: htmlUnescape r
      | 'q' :: 'u' :: 'o' :: 't' :: ';' :: r => '"' :: htmlUnescape r
      | _ => '&' :: fallback
    else c :: fallback

/-- The body of the `for doc in tree.iter('doc')` loop of
`get_all_passages` (lines 90–97): iterate over every element of `doc`,
keep titles, headlines and passages, and for each such candidate check
that the list of `lang`-node texts is non-empty (the truthiness test of
line 94) and that its first entry — `head?` under the non-emptiness
guard models the `[0]` indexing of line 96 — equals `'en'`, before
appending the unescaped flattened text. -/
def doc_passages (doc : Elem) : List Str :=
  (iterAll doc).flatMap fun element =>
    if element.tag ∈ [str "title", str "headline", str "passage"] then
      if (iterTag (str "lang") doc).map Elem.text ≠ [] then
        if ((iterTag (str "lang") doc).map Elem.text).head? = some (some (str "en")) then
          [htmlUnescape (gettext element)]
        else []
      else []
    else []

/-- `get_all_passages` of `get_sentences.py` (lines 78–99): concatenate
the per-document passages over all `doc`-tagged elements of the tree. -/
def get_all_passages (tree : Elem) : List Str :=
  (iterTag (str "doc") tree).flatMap doc_passages

/-- `query_from_wordlist` (lines 32–41): `' '.join(['+' + word for word
in wordlist])`. -/
def query_from_wordlist (wordlist : List Str) : Str :=
  List.intercalate (str " ") (wordlist.map fun word => '+' :: word)

/-- Whitespace as recognised by Python's `str.strip()` with no argument:
the characters `c` with `c.isspace()` true (ASCII whitespace, the
information separators, NEL, and the Unicode space characters). -/
def pyIsSpace (c : Char) : Bool :=
  c ∈ [' ', '\t', '\n', '\x0b', '\x0c', '\r',
       '\x1c', '\x1d', '\x1e', '\x1f', '\x85', '\xa0',
       '\u1680', '\u2000', '\u2001', '\u2002', '\u2003', '\u2004',
       '\u2005', '\u2006', '\u2007', '\u2008', '\u2009', '\u200a',
       '\u2028', '\u2029', '\u202f', '\u205f', '\u3000']

/-- Python `line.strip()`: remove leading and trailing whitespace. -/
def pyStrip (s : Str) : Str :=
  ((s.dropWhile pyIsSpace).reverse.dropWhile pyIsSpace).reverse

/-- A space or tab: the character class `[ \t]` of the splitting regex,
the input format's field separators. -/
def isSpaceTab (c : Char) : Bool :=
  c = ' ' ∨ c = '\t'

/-- Python `re.split('[ \t]', s)`: cut the string at every single space
or tab character, keeping empty pieces. -/
def reSplitSpaceTab : Str → List Str
  | [] => [[]]
  | c :: rest =>
    if isSpaceTab c then
      [] :: reSplitSpaceTab rest
    else
      match reSplitSpaceTab rest with
      | [] => [[c]]
      | piece :: pieces => (c :: piece) :: pieces

/-- The body of the loop of `get_lines_from_file` (line 28):
`[x for x in re.split('[ \t]', line.strip()) if x]`. -/
def tokenize (line : Str) : List Str :=
  (reSplitSpaceTab (pyStrip line)).filter (fun x => x ≠ [])

/-- `get_lines_from_file` (lines 18–29), with the input file given as its
list of physical lines (a physical line may carry its trailing newline;
`strip` removes it either way).  The Python generator lazily yields one
word list per line; laziness is immaterial to the values produced. -/
def get_lines_from_file (file : List Str) : List (List Str) :=
  file.map tokenize

/-- One hexadecimal digit, lowercase, as produced by Python's `json`
encoder in `\u00XX` escapes. -/
def hexDigit (n : Nat) : Char :=
  if n < 10 then Char.ofNat (48 + n) else Char.ofNat (87 + n)

/-- Escape of one character inside a JSON string as produced by
`json.dumps` with `ensure_ascii=False`: `"` and `\` are backslash-escaped,
the control characters below U+0020 use the short escapes or `\u00XX`,
everything else (non-ASCII included) passes through unchanged. -/
def jsonEscapeChar (c : Char) : Str :=
  if c = '"' then ['\\', '"']
  else if c = '\\' then ['\\', '\\']
  else if c = '\n' then ['\\', 'n']
  else if c = '\r' then ['\\', 'r']
  else if c = '\t' then ['\\', 't']
  else if c = '\x08' then ['\\', 'b']
  else if c = '\x0c' then ['\\', 'f']
  else if c.toNat < 0x20 then
    ['\\', 'u', '0', '0', hexDigit (c.toNat / 16), hexDigit (c.toNat % 16)]
  else [c]

/-- A JSON string literal for `s`. -/
def jsonString (s : Str) : Str :=
  '"' :: s.flatMap jsonEscapeChar ++ ['"']

/-- `json.dumps(passages, ensure_ascii=False)` for a list of strings:
`[` , the string literals joined by `, `, `]`. -/
def jsonDumps (passages : List Str) : Str :=
  '[' :: List.intercalate (str ", ") (passages.map jsonString) ++ [']']

/-- The value `search` returns for one query, folded together with the
subsequent `ElementTree.fromstring` call of `write_passages`:
`failure code` models a non-200 HTTP response (in which case `search`
returns `response.status_code`, an `int`); `payload t` models a 200
response whose body `response.content` parses to the tree `t`, with
`payload none` modelling a body on which `ElementTree.fromstring` raises
a parse error.  The network call of `requests.get` is external, so a run
is parametrised by a provider function from the query string to this
outcome. -/
inductive Resp : Type where
  | failure (code : Int)
  | payload (t : Option Elem)

/-- `search` (lines 44–60), with the network modelled by the provider
function: issue the query and return the provider's response. -/
def search (provider : Str → Resp) (query : Str) : Resp :=
  provider query

/-- The log records emitted inside the loop of `write_passages`, one
constructor per `logging` call, carrying the data interpolated into the
format string.  `requestFailed n c` is "Request for line n failed,
status code c" (line 133), `searchError n m` is "An error occurred at
line n: m" (line 145), `exiting` is "Exiting", `processed i` is
"Processed i lines" (line 157), `done` is "Done" (line 159).  The
two header messages naming the input and output files (lines 119–121)
mention only the file paths, which are outside this model of the file
contents, and are omitted. -/
inductive LogMsg : Type where
  | requestFailed (lineNumber : Nat) (statusCode : Int)
  | searchError (lineNumber : Nat) (message : Option Str)
  | exiting
  | processed (count : Nat)
  | done
deriving DecidableEq

/-- Terminal state of a run: `completed` when the input was exhausted,
`halted` on the `return` taken for a failed request or a provider-reported
error, `crashed` when `ElementTree.fromstring` raises on a malformed
payload (an unhandled exception, not a deliberate halt). -/
inductive Outcome : Type where
  | completed
  | halted
  | crashed
deriving DecidableEq

/-- Observable result of a run of `write_passages`: the records written
to the output file in order (each one JSON line including its trailing
newline), the loop's log records in order, and the terminal state. -/
structure RunResult : Type where
  output : List Str
  log : List LogMsg
  outcome : Outcome

/-- The text of the first `error`-tagged node,
`[elem.text for elem in tree.iter('error')][0]` (line 144); meaningful
when the tree has an `error` node. -/
def firstErrorText (tree : Elem) : Option Str :=
  (((iterTag (str "error") tree).map Elem.text).head?).join

/-- The `for i, word_list in enumerate(words_generator)` loop of
`write_passages` (lines 123–157) from loop index `i` on, over the
remaining word lists: query the provider; on an `int` response log the
failure and halt with nothing further written; otherwise parse (a parse
error crashes the run); if any node of the tree is tagged `error`, log
the first error node's text and halt; otherwise write the JSON line for
the extracted passages, log progress every 1000 lines, and continue. -/
def writePassagesLoop (provider : Str → Resp) : Nat → List (List Str) → RunResult
  | _, [] => ⟨[], [.done], .completed⟩
  | i, wordList :: rest =>
    match search provider (query_from_wordlist wordList) with
    | .failure code => ⟨[], [.requestFailed (i + 1) code, .exiting], .halted⟩
    | .payload none => ⟨[], [], .crashed⟩
    | .payload (some tree) =>
      if str "error" ∈ (iterAll tree).map Elem.tag then
        ⟨[], [.searchError (i + 1) (firstErrorText tree), .exiting], .halted⟩
      else
        let r := writePassagesLoop provider (i + 1) rest
        ⟨(jsonDumps (get_all_passages tree) ++ ['\n']) :: r.output,
         (if i % 1000 = 0 then [LogMsg.processed i] else []) ++ r.log,
         r.outcome⟩

/-- `write_passages` (lines 102–159) on an input file given as its list
of physical lines: run the loop from index 0 over the word lists produced
by `get_lines_from_file`. -/
def write_passages (provider : Str → Resp) (file : List Str) : RunResult :=
  writePassagesLoop provider 0 (get_lines_from_file file)

/-! Derived notions used to state the claims. -/

/-- The text of the first `lang`-tagged node of a document, when one
exists: `none` when the document has no `lang` node, `some none` when the
first `lang` node's text is Python `None`, `some (some s)` when it is the
string `s`.  This is the value `get_all_passages` compares to `'en'`. -/
def firstLangText (d : Elem) : Option (Option Str) :=
  ((iterTag (str "lang") d).map Elem.text).head?

/-- Whether processing one input line halts the run: the provider answers
with a status code, or the payload is malformed, or the parsed tree
contains an `error`-tagged node. -/
def lineFails (provider : Str → Resp) (line : Str) : Bool :=
  match search provider (query_from_wordlist (tokenize line)) with
  | .failure _ => true
  | .payload none => true
  | .payload (some tree) => decide (str "error" ∈ (iterAll tree).map Elem.tag)

/-- The record `write_passages` writes for one successfully processed
input line: the JSON array of the extracted passages plus the newline.
(For a failing line nothing is written; the value returned here for a
failing line is immaterial.) -/
def lineRecord (provider : Str → Resp) (line : Str) : Str :=
  match search provider (query_from_wordlist (tokenize line)) with
  | .payload (some tree) => jsonDumps (get_all_passages tree) ++ ['\n']
  | _ => []

/-- The 0-based index of the first failing input line, when one exists. -/
def firstFailIdx (provider : Str → Resp) : List Str → Option Nat
  | [] => none
  | line :: rest =>
    if lineFails provider line then some 0
    else (firstFailIdx provider rest).map (· + 1)

/-- How many lines a run writes: the 0-based index of the first failing
line, or the total line count when every line succeeds. -/
def haltCount (provider : Str → Resp) (file : List Str) : Nat :=
  match firstFailIdx provider file with
  | some i => i
  | none => file.length

/-- The Query Builder's contract in the specification's words: prefix
each token with `+` and join the prefixed tokens with single spaces. -/
def specQuery : List Str → Str
  | [] => []
  | [w] => '+' :: w
  | w :: v :: ws => '+' :: w ++ ' ' :: specQuery (v :: ws)

/-- `List.dropWhile` never lengthens a list (termination measure for
`splitRuns`). -/
theorem len_dropWhile_le (p : Char → Bool) (l : Str) :
    (l.dropWhile p).length ≤ l.length := by
  induction l with
  | nil => simp [List.dropWhile]
  | cons c rest ih =>
    rw [List.dropWhile_cons]
    by_cases h : p c
    · rw [if_pos h]
      simp only [List.length_cons]
      omega
    · rw [if_neg h]

/-- The Line Reader's splitting rule in the specification's words: the
maximal non-empty substrings that contain no space or tab, in order. -/
def splitRuns : Str → List Str
  | [] => []
  | c :: rest =>
    if isSpaceTab c then splitRuns rest
    else (c :: rest.takeWhile (fun d => !isSpaceTab d)) ::
         splitRuns (rest.dropWhile (fun d => !isSpaceTab d))
termination_by s => s.length
decreasing_by
  · simp
  · have := len_dropWhile_le (fun d => !isSpaceTab d) rest
    simp
    omega

/-- Removal of a line's trailing newline, and nothing else — the
transformation the claim about the Line Reader says precedes the split. -/
def removeTrailingNewline (s : Str) : Str :=
  if s.getLast? = some '\n' then s.dropLast else s

/-- The Line Reader's per-line behaviour exactly as the claim states it:
split the line, with only its trailing newline removed, into maximal
space/tab-free runs. -/
def specTokenize (line : Str) : List Str :=
  splitRuns (removeTrailingNewline line)

/-! Concrete fixtures used in witnesses and counterexamples. -/

/-- `<passage>A <b>B</b> C</passage>`. -/
def passageABC : Elem :=
  .mk (str "passage") (some (str "A "))
    [.mk (str "b") (some (str "B")) [] (some (str " C"))] none

/-- A document declaring language `ru` yet containing a title, a headline
and a passage. -/
def ruDoc : Elem :=
  .mk (str "doc") none
    [.mk (str "lang") (some (str "ru")) [] none,
     .mk (str "title") (some (str "T")) [] none,
     .mk (str "headline") (some (str "H")) [] none,
     .mk (str "passage") (some (str "P")) [] none] none

/-- A document with no `lang` node but with candidate nodes. -/
def noLangDoc : Elem :=
  .mk (str "doc") none
    [.mk (str "title") (some (str "T")) [] none,
     .mk (str "passage") (some (str "P")) [] none] none

/-- An English document whose single passage's text is
`a ++ "&amp;" ++ b`. -/
def ampDoc (a b : Str) : Elem :=
  .mk (str "doc") none
    [.mk (str "lang") (some (str "en")) [] none,
     .mk (str "passage") (some (a ++ str "&amp;" ++ b)) [] none] none

/-- A passage nested inside a title. -/
def innerPassage : Elem := .mk (str "passage") (some (str "inner")) [] none

/-- A title whose only child is `innerPassage`. -/
def outerTitle : Elem := .mk (str "title") (some (str "out ")) [innerPassage] none

/-- An English document containing `outerTitle` (and through it, the
nested `innerPassage`). -/
def nestedDoc : Elem :=
  .mk (str "doc") none
    [.mk (str "lang") (some (str "en")) [] none, outerTitle] none

/-- A well-formed English response document with one title. -/
def okTree : Elem :=
  .mk (str "yandexsearch") none
    [.mk (str "doc") none
      [.mk (str "lang") (some (str "en")) [] none,
       .mk (str "title") (some (str "Hello World")) [] none] none] none

/-- A response tree carrying a provider-reported error. -/
def errTree : Elem :=
  .mk (str "yandexsearch") none
    [.mk (str "error") (some (str "quota exceeded")) [] none] none

/-- A provider that fails with status code 403 on the query `+foo` and
answers `okTree` otherwise. -/
def provider403 : Str → Resp :=
  fun q => if q = str "+foo" then .failure 403 else .payload (some okTree)

/-- The two-line input file of the transport-failure scenario. -/
def fileHelloFoo : List Str := [str "hello world", str "foo"]

/-- A provider that reports a provider-side error on the query `+w5` and
answers `okTree` otherwise. -/
def providerErr5 : Str → Resp :=
  fun q => if q = str "+w5" then .payload (some errTree) else .payload (some okTree)

/-- A five-line input file whose fifth line triggers `providerErr5`. -/
def fileW5 : List Str := [str "w1", str "w2", str "w3", str "w4", str "w5"]

/-! Structural lemmas about the tree functions. -/

/-- The accumulating loop of `gettext` appends, after the accumulator,
each child's flattened text followed by its tail. -/
theorem gettextLoop_eq (cs : List Elem) :
    ∀ acc : Str,
      gettextLoop acc cs = acc ++ cs.flatMap (fun c => gettext c ++ c.tail.getD []) := by
  induction cs with
  | nil => intro acc; simp [gettextLoop]
  | cons c rest ih =>
    intro acc
    rw [gettextLoop, ih, List.flatMap_cons]
    simp

/-- `gettext` is the element's own text followed by, for each child in
order, the child's flattened text followed by the child's tail text. -/
theorem gettext_eq (e : Elem) :
    gettext e = e.text.getD [] ++ e.children.flatMap (fun c => gettext c ++ c.tail.getD []) := by
  cases e with
  | mk t x cs tl => rw [gettext, gettextLoop_eq]; rfl

/-- Iteration over a list of siblings concatenates the per-tree
iterations. -/
theorem iterAllList_eq (cs : List Elem) :
    iterAllList cs = cs.flatMap iterAll := by
  induction cs with
  | nil => rw [iterAllList, List.flatMap_nil]
  | cons c rest ih => rw [iterAllList, ih, List.flatMap_cons]

/-- `iter` yields the element itself and then the iterations of its
children, in order. -/
theorem iterAll_eq (e : Elem) :
    iterAll e = e :: e.children.flatMap iterAll := by
  cases e with
  | mk t x cs tl => rw [iterAll, iterAllList_eq]; rfl

/-- Structural induction over `Elem`, with the hypothesis available for
every child. -/
theorem elem_induction {P : Elem → Prop}
    (step : ∀ t x cs tl, (∀ c ∈ cs, P c) → P (Elem.mk t x cs tl)) :
    ∀ e, P e := by
  have key : ∀ n (e : Elem), sizeOf e < n → P e := by
    intro n
    induction n with
    | zero => intro e h; omega
    | succ m ih =>
      intro e h
      cases e with
      | mk t x cs tl =>
        apply step
        intro c hc
        apply ih
        have h1 : sizeOf c < sizeOf cs := List.sizeOf_lt_of_mem hc
        have h2 : sizeOf cs < sizeOf (Elem.mk t x cs tl) := by
          simp only [Elem.mk.sizeOf_spec]; omega
        omega
  exact fun e => key (sizeOf e + 1) e (by omega)

/-- An element is among its own iteration. -/
theorem self_mem_iterAll (e : Elem) : e ∈ iterAll e := by
  rw [iterAll_eq]; exact List.mem_cons_self e _

/-- Descendant-of-descendant is descendant: membership in `iter` is
transitive. -/
theorem iterAll_trans :
    ∀ d : Elem, ∀ e ∈ iterAll d, ∀ c ∈ iterAll e, c ∈ iterAll d := by
  apply elem_induction
  intro t x cs tl ih e he c hc
  rw [iterAll_eq] at he ⊢
  rcases List.mem_cons.mp he with rfl | he
  · rw [iterAll_eq] at hc; exact hc
  · rcases List.mem_flatMap.mp he with ⟨c0, hc0, hec0⟩
    exact List.mem_cons_of_mem _ (List.mem_flatMap.mpr ⟨c0, hc0, ih c0 hc0 e hec0 c hc⟩)

/-- One block of a `flatMap` is a contiguous segment of the result. -/
theorem flatMap_segment {α β : Type} (f : α → List β) :
    ∀ (l : List α), ∀ a ∈ l, ∃ u v, l.flatMap f = u ++ f a ++ v := by
  intro l
  induction l with
  | nil => intro a ha; cases ha
  | cons b rest ih =>
    intro a ha
    rcases List.mem_cons.mp ha with rfl | ha
    · exact ⟨[], rest.flatMap f, by rw [List.flatMap_cons]; simp⟩
    · rcases ih a ha with ⟨u, v, huv⟩
      exact ⟨f b ++ u, v, by rw [List.flatMap_cons, huv]; simp⟩

/-- The flattened text of a descendant is a contiguous segment of the
flattened text of its ancestor. -/
theorem gettext_segment :
    ∀ e : Elem, ∀ c ∈ iterAll e, ∃ u v, gettext e = u ++ gettext c ++ v := by
  apply elem_induction
  intro t x cs tl ih c hc
  rw [iterAll_eq] at hc
  rcases List.mem_cons.mp hc with rfl | hc
  · exact ⟨[], [], by simp⟩
  · rcases List.mem_flatMap.mp hc with ⟨c0, hc0, hcc0⟩
    rcases ih c0 hc0 c hcc0 with ⟨u, v, huv⟩
    rcases flatMap_segment (fun c => gettext c ++ c.tail.getD []) cs c0 hc0 with ⟨u', v', huv'⟩
    refine ⟨(Elem.mk t x cs tl).text.getD [] ++ u' ++ u,
            v ++ c0.tail.getD [] ++ v', ?_⟩
    rw [gettext_eq]
    simp only [Elem.children, Elem.text]
    rw [huv', huv]
    simp

/-! Lemmas about the language filter and entity unescaping. -/

/-- A `flatMap` whose blocks are conditional singletons is a filtered
map. -/
theorem flatMap_ite_singleton {α β : Type} (p : α → Prop) [DecidablePred p] (f : α → β) :
    ∀ l : List α,
      (l.flatMap fun a => if p a then [f a] else []) = (l.filter (fun a => p a)).map f := by
  intro l
  induction l with
  | nil => simp
  | cons a rest ih =>
    by_cases h : p a <;> simp [List.filter_cons, h, ih]

/-- `doc_passages`, restructured: nothing unless the document's first
`lang` node has text exactly `en`, and in that case the unescaped
flattened text of every candidate element, in document order. -/
theorem doc_passages_eq (d : Elem) :
    doc_passages d =
      if firstLangText d = some (some (str "en")) then
        ((iterAll d).filter
          (fun e => e.tag ∈ [str "title", str "headline", str "passage"])).map
          (fun e => htmlUnescape (gettext e))
      else [] := by
  unfold doc_passages firstLangText
  by_cases hL : ((iterTag (str "lang") d).map Elem.text).head? = some (some (str "en"))
  · have hne : (iterTag (str "lang") d).map Elem.text ≠ [] := by
      intro h0; rw [h0] at hL; simp at hL
    rw [if_pos hL]
    simp only [if_pos hne, if_pos hL]
    exact flatMap_ite_singleton _ _ _
  · rw [if_neg hL]
    by_cases hne : (iterTag (str "lang") d).map Elem.text ≠ []
    · simp only [if_pos hne, if_neg hL]
      simp
    · simp only [if_neg hne]
      simp

/-- Every candidate element of an English document contributes its
unescaped flattened text to the document's passages. -/
theorem mem_doc_passages {d e : Elem} (he : e ∈ iterAll d)
    (ht : e.tag ∈ [str "title", str "headline", str "passage"])
    (hl : firstLangText d = some (some (str "en"))) :
    htmlUnescape (gettext e) ∈ doc_passages d := by
  rw [doc_passages_eq, if_pos hl]
  exact List.mem_map.mpr ⟨e, List.mem_filter.mpr ⟨he, by simpa using ht⟩, rfl⟩

/-- A character other than `&` passes through `htmlUnescape` and leaves
the rest of the string to be processed independently. -/
theorem htmlUnescape_cons_ne {c : Char} (rest : Str) (h : c ≠ '&') :
    htmlUnescape (c :: rest) = c :: htmlUnescape rest := by
  rw [htmlUnescape.eq_def]
  simp only [if_neg h]

/-- A string without `&` is a fixed point of `htmlUnescape`. -/
theorem htmlUnescape_no_amp : ∀ s : Str, '&' ∉ s → htmlUnescape s = s := by
  intro s
  induction s with
  | nil => intro _; rfl
  | cons c rest ih =>
    intro h
    have hc : c ≠ '&' := fun hceq => h (hceq ▸ List.mem_cons_self c rest)
    have hrest : '&' ∉ rest := fun hr => h (List.mem_cons_of_mem c hr)
    rw [htmlUnescape_cons_ne rest hc, ih hrest]

/-- Unescaping a string whose only entity is one `&amp;`: the entity
becomes `&` and everything else is untouched. -/
theorem htmlUnescape_amp (a b : Str) (ha : '&' ∉ a) (hb : '&' ∉ b) :
    htmlUnescape (a ++ str "&amp;" ++ b) = a ++ '&' :: b := by
  induction a with
  | nil =>
    simp only [List.nil_append]
    rw [show (str "&amp;" ++ b) = '&' :: 'a' :: 'm' :: 'p' :: ';' :: b from rfl]
    rw [show htmlUnescape ('&' :: 'a' :: 'm' :: 'p' :: ';' :: b) = '&' :: htmlUnescape b from rfl]
    rw [htmlUnescape_no_amp b hb]
  | cons c a' ih =>
    have hc : c ≠ '&' := fun hceq => ha (hceq ▸ List.mem_cons_self c a')
    have ha' : '&' ∉ a' := fun hr => ha (List.mem_cons_of_mem c hr)
    rw [List.cons_append, List.cons_append, htmlUnescape_cons_ne _ hc, ih ha',
        List.cons_append]

/-! Lemmas relating the single-character regex split to the
maximal-run split. -/

/-- What remains of a `re.split` after its first piece. -/
def reSplitTail (s : Str) : List Str :=
  match s.dropWhile (fun d => !isSpaceTab d) with
  | [] => []
  | _ :: r => reSplitSpaceTab r

/-- The first piece of a `re.split` is the maximal separator-free prefix,
and the remaining pieces are the split of what follows the first
separator. -/
theorem reSplit_head_tail :
    ∀ s : Str,
      reSplitSpaceTab s = s.takeWhile (fun d => !isSpaceTab d) :: reSplitTail s := by
  intro s
  induction s with
  | nil => simp [reSplitSpaceTab, reSplitTail]
  | cons c rest ih =>
    by_cases hc : isSpaceTab c
    · rw [reSplitSpaceTab, if_pos hc]
      rw [List.takeWhile_cons, if_neg (by simp [hc]), reSplitTail,
          List.dropWhile_cons, if_neg (by simp [hc])]
    · rw [reSplitSpaceTab, if_neg hc, ih]
      show (c :: List.takeWhile (fun d => !isSpaceTab d) rest) :: reSplitTail rest
         = List.takeWhile (fun d => !isSpaceTab d) (c :: rest) :: reSplitTail (c :: rest)
      rw [List.takeWhile_cons, if_pos (by simp [hc])]
      congr 1
      simp only [reSplitTail]
      rw [List.dropWhile_cons, if_pos (by simp [hc])]

/-- The first element surviving a `dropWhile` falsifies the predicate. -/
theorem dropWhile_head_false {p : Char → Bool} :
    ∀ (l : Str) (d : Char) (r : Str), l.dropWhile p = d :: r → p d = false := by
  intro l
  induction l with
  | nil => intro d r h; cases h
  | cons c rest ih =>
    intro d r h
    rw [List.dropWhile_cons] at h
    by_cases hc : p c
    · rw [if_pos hc] at h; exact ih d r h
    · rw [if_neg hc] at h
      cases h
      simpa using hc

/-- Dropping the empty pieces of the single-character split leaves
exactly the maximal non-empty runs. -/
theorem reSplit_filter_eq_splitRuns (s : Str) :
    (reSplitSpaceTab s).filter (fun x => x ≠ []) = splitRuns s := by
  generalize hn : s.length = n
  induction n using Nat.strong_induction_on generalizing s with
  | _ n ih =>
    cases s with
    | nil => simp [reSplitSpaceTab, splitRuns]
    | cons c rest =>
      by_cases hc : isSpaceTab c
      · rw [reSplitSpaceTab, if_pos hc, splitRuns, if_pos hc]
        rw [List.filter_cons, if_neg (by decide)]
        exact ih rest.length (by rw [← hn]; simp) rest rfl
      · rw [reSplitSpaceTab, if_neg hc, splitRuns, if_neg hc,
            reSplit_head_tail rest]
        show List.filter (fun x => x ≠ [])
            ((c :: List.takeWhile (fun d => !isSpaceTab d) rest) :: reSplitTail rest) = _
        rw [List.filter_cons, if_pos (by simp)]
        congr 1
        rw [reSplitTail]
        cases hd : rest.dropWhile (fun d => !isSpaceTab d) with
        | nil => simp [splitRuns]
        | cons d r =>
          have hdfalse : (!isSpaceTab d) = false := dropWhile_head_false _ _ _ hd
          have hdsep : isSpaceTab d := by simpa using hdfalse
          rw [splitRuns, if_pos hdsep]
          have hlen : r.length < n := by
            have h1 : (rest.dropWhile (fun d => !isSpaceTab d)).length ≤ rest.length :=
              len_dropWhile_le _ rest
            rw [hd] at h1
            simp only [List.length_cons] at h1
            simp only [List.length_cons] at hn
            omega
          exact ih r.length hlen r rfl

/-- The tokens of a line are the maximal space/tab-free runs of the
whitespace-stripped line. -/
theorem tokenize_eq_splitRuns (line : Str) :
    tokenize line = splitRuns (pyStrip line) :=
  reSplit_filter_eq_splitRuns (pyStrip line)

/-! Lemmas about the run of the pipeline. -/

/-- The first failing index points inside the file. -/
theorem firstFailIdx_some_lt {p : Str → Resp} :
    ∀ (file : List Str) (i : Nat), firstFailIdx p file = some i → i < file.length := by
  intro file
  induction file with
  | nil => intro i h; cases h
  | cons line rest ih =>
    intro i h
    rw [firstFailIdx] at h
    by_cases hf : lineFails p line
    · rw [if_pos hf] at h
      cases h
      simp
    · rw [if_neg hf] at h
      cases hr : firstFailIdx p rest with
      | none => rw [hr] at h; cases h
      | some j =>
        rw [hr] at h
        cases h
        have := ih j hr
        simp only [List.length_cons]
        omega

/-- A run never writes more lines than the file has. -/
theorem haltCount_le_length (p : Str → Resp) (file : List Str) :
    haltCount p file ≤ file.length := by
  rw [haltCount]
  cases h : firstFailIdx p file with
  | none => exact Nat.le_refl _
  | some i => exact Nat.le_of_lt (firstFailIdx_some_lt file i h)

/-- A failing first line stops counting at zero. -/
theorem haltCount_cons_true {p : Str → Resp} {line : Str} (rest : List Str)
    (h : lineFails p line = true) : haltCount p (line :: rest) = 0 := by
  rw [haltCount, firstFailIdx, if_pos h]

/-- A successful first line shifts the count by one. -/
theorem haltCount_cons_false {p : Str → Resp} {line : Str} (rest : List Str)
    (h : lineFails p line = false) :
    haltCount p (line :: rest) = haltCount p rest + 1 := by
  rw [haltCount, haltCount, firstFailIdx, if_neg (by simp [h])]
  cases hr : firstFailIdx p rest <;> simp [List.length_cons]

/-- The loop's output over the remaining lines: one record per line
before the first failing one, and nothing from there on, regardless of
the loop index. -/
theorem loop_output (p : Str → Resp) :
    ∀ (file : List Str) (j : Nat),
      (writePassagesLoop p j (get_lines_from_file file)).output =
        (file.take (haltCount p file)).map (lineRecord p) := by
  intro file
  induction file with
  | nil =>
    intro j
    simp [get_lines_from_file, writePassagesLoop, haltCount, firstFailIdx]
  | cons line rest ih =>
    intro j
    have hmap : get_lines_from_file (line :: rest) =
        tokenize line :: get_lines_from_file rest := by
      simp [get_lines_from_file]
    rw [hmap, writePassagesLoop]
    cases hp : search p (query_from_wordlist (tokenize line)) with
    | failure code =>
      have hf : lineFails p line = true := by rw [lineFails, hp]
      rw [haltCount_cons_true rest hf]
      simp
    | payload t =>
      cases t with
      | none =>
        have hf : lineFails p line = true := by rw [lineFails, hp]
        rw [haltCount_cons_true rest hf]
        simp
      | some tree =>
        by_cases he : str "error" ∈ (iterAll tree).map Elem.tag
        · have hf : lineFails p line = true := by
            rw [lineFails, hp]; simpa using he
          rw [haltCount_cons_true rest hf]
          simp [he]
        · have hf : lineFails p line = false := by
            rw [lineFails, hp]; simpa using he
          rw [haltCount_cons_false rest hf]
          rw [List.take_cons (by omega : 0 < haltCount p rest + 1)]
          simp only [Nat.add_sub_cancel, List.map_cons]
          rw [if_neg he]
          simp only []
          rw [ih (j + 1)]
          congr 1
          rw [lineRecord, hp]

/-- When the first failing line fails with a status code, the loop halts
there, logs the failure with the 1-based absolute line number and the
code, and the log entry survives into the final log. -/
theorem loop_halt_fail (p : Str → Resp) :
    ∀ (file : List Str) (j i : Nat) (c : Int)
      (_ : firstFailIdx p file = some i) (hi : i < file.length),
      p (query_from_wordlist (tokenize (file.get ⟨i, hi⟩))) = Resp.failure c →
      (writePassagesLoop p j (get_lines_from_file file)).outcome = Outcome.halted ∧
      LogMsg.requestFailed (j + i + 1) c ∈
        (writePassagesLoop p j (get_lines_from_file file)).log := by
  intro file
  induction file with
  | nil => intro j i c h1 hi h2; cases h1
  | cons line rest ih =>
    intro j i c h1 hi h2
    have hmap : get_lines_from_file (line :: rest) =
        tokenize line :: get_lines_from_file rest := by
      simp [get_lines_from_file]
    rw [firstFailIdx] at h1
    by_cases hf : lineFails p line
    · rw [if_pos hf] at h1
      cases h1
      have hget : (line :: rest).get ⟨0, hi⟩ = line := rfl
      rw [hget] at h2
      rw [hmap, writePassagesLoop, search, h2]
      refine ⟨rfl, ?_⟩
      show LogMsg.requestFailed (j + 0 + 1) c ∈
        [LogMsg.requestFailed (j + 1) c, LogMsg.exiting]
      simp
    · rw [if_neg hf] at h1
      cases hr : firstFailIdx p rest with
      | none => rw [hr] at h1; cases h1
      | some i' =>
        rw [hr] at h1
        cases h1
        have hi' : i' < rest.length := by
          simp only [List.length_cons] at hi; omega
        have hget : (line :: rest).get ⟨i' + 1, hi⟩ = rest.get ⟨i', hi'⟩ := rfl
        rw [hget] at h2
        rw [hmap, writePassagesLoop]
        cases hp : search p (query_from_wordlist (tokenize line)) with
        | failure code =>
          exact absurd (by rw [lineFails, hp] : lineFails p line = true) hf
        | payload t =>
          cases t with
          | none =>
            exact absurd (by rw [lineFails, hp] : lineFails p line = true) hf
          | some tree =>
            by_cases he : str "error" ∈ (iterAll tree).map Elem.tag
            · exact absurd (by rw [lineFails, hp]; simpa using he) hf
            · simp only [if_neg he]
              rcases ih (j + 1) i' c hr hi' h2 with ⟨hout, hmem⟩
              refine ⟨hout, ?_⟩
              show LogMsg.requestFailed (j + (i' + 1) + 1) c ∈
                (if j % 1000 = 0 then [LogMsg.processed j] else []) ++
                  (writePassagesLoop p (j + 1) (get_lines_from_file rest)).log
              rw [show j + (i' + 1) + 1 = (j + 1) + i' + 1 from by omega]
              exact List.mem_append_right _ hmem

/-- When the first failing line carries a provider-reported error, the
loop halts there and logs the first error node's text with the 1-based
absolute line number. -/
theorem loop_halt_error (p : Str → Resp) :
    ∀ (file : List Str) (j i : Nat) (tree : Elem)
      (_ : firstFailIdx p file = some i) (hi : i < file.length),
      p (query_from_wordlist (tokenize (file.get ⟨i, hi⟩))) = Resp.payload (some tree) →
      str "error" ∈ (iterAll tree).map Elem.tag →
      (writePassagesLoop p j (get_lines_from_file file)).outcome = Outcome.halted ∧
      LogMsg.searchError (j + i + 1) (firstErrorText tree) ∈
        (writePassagesLoop p j (get_lines_from_file file)).log := by
  intro file
  induction file with
  | nil => intro j i tree h1 hi h2 h3; cases h1
  | cons line rest ih =>
    intro j i tree h1 hi h2 h3
    have hmap : get_lines_from_file (line :: rest) =
        tokenize line :: get_lines_from_file rest := by
      simp [get_lines_from_file]
    rw [firstFailIdx] at h1
    by_cases hf : lineFails p line
    · rw [if_pos hf] at h1
      cases h1
      have hget : (line :: rest).get ⟨0, hi⟩ = line := rfl
      rw [hget] at h2
      rw [hmap, writePassagesLoop, search, h2]
      simp only [if_pos h3]
      refine ⟨by trivial, ?_⟩
      show LogMsg.searchError (j + 0 + 1) (firstErrorText tree) ∈
        [LogMsg.searchError (j + 1) (firstErrorText tree), LogMsg.exiting]
      simp
    · rw [if_neg hf] at h1
      cases hr : firstFailIdx p rest with
      | none => rw [hr] at h1; cases h1
      | some i' =>
        rw [hr] at h1
        cases h1
        have hi' : i' < rest.length := by
          simp only [List.length_cons] at hi; omega
        have hget : (line :: rest).get ⟨i' + 1, hi⟩ = rest.get ⟨i', hi'⟩ := rfl
        rw [hget] at h2
        rw [hmap, writePassagesLoop]
        cases hp : search p (query_from_wordlist (tokenize line)) with
        | failure code =>
          exact absurd (by rw [lineFails, hp] : lineFails p line = true) hf
        | payload t =>
          cases t with
          | none =>
            exact absurd (by rw [lineFails, hp] : lineFails p line = true) hf
          | some tree' =>
            by_cases he : str "error" ∈ (iterAll tree').map Elem.tag
            · exact absurd (by rw [lineFails, hp]; simpa using he) hf
            · simp only [if_neg he]
              rcases ih (j + 1) i' tree hr hi' h2 h3 with ⟨hout, hmem⟩
              refine ⟨hout, ?_⟩
              show LogMsg.searchError (j + (i' + 1) + 1) (firstErrorText tree) ∈
                (if j % 1000 = 0 then [LogMsg.processed j] else []) ++
                  (writePassagesLoop p (j + 1) (get_lines_from_file rest)).log
              rw [show j + (i' + 1) + 1 = (j + 1) + i' + 1 from by omega]
              exact List.mem_append_right _ hmem

/-! The claims. -/

/-- **C1.** For every input file and every provider behaviour, the output
is exactly one record per input line before the first failing line — so
its line count equals the total input line count on full success and the
0-based index of the first failing line on a halt, never more — and
output line `i` is the serialized LineResult of input line `i`. -/
theorem c1_output_lines_correspond (p : Str → Resp) (file : List Str) :
    (write_passages p file).output =
      (file.take (haltCount p file)).map (lineRecord p) ∧
    (write_passages p file).output.length = haltCount p file := by
  have h := loop_output p file 0
  rw [write_passages]
  refine ⟨h, ?_⟩
  rw [h, List.length_map, List.length_take]
  exact min_eq_left (haltCount_le_length p file)

/-- **C2.** A document contributes passages only when its first `lang`
node's text is exactly `en`: a document whose first `lang` text is
anything else (for example `ru`, or a document with no `lang` node at
all) contributes zero passages even when it contains `title`, `headline`
or `passage` nodes, and on an exact match every candidate node is
extracted. -/
theorem c2_language_filter :
    (∀ d : Elem, doc_passages d =
      if firstLangText d = some (some (str "en")) then
        ((iterAll d).filter
          (fun e => e.tag ∈ [str "title", str "headline", str "passage"])).map
          (fun e => htmlUnescape (gettext e))
      else []) ∧
    doc_passages ruDoc = [] ∧
    doc_passages noLangDoc = [] :=
  ⟨doc_passages_eq, by decide, by decide⟩

/-- **C3.** `gettext` flattens an element to its own text followed by,
for each child in order, the child's recursively flattened text followed
by that child's tail text; in particular
`<passage>A <b>B</b> C</passage>` flattens to `A B C`. -/
theorem c3_gettext_flattening :
    (∀ e : Elem, gettext e =
      e.text.getD [] ++ e.children.flatMap (fun c => gettext c ++ c.tail.getD [])) ∧
    gettext passageABC = str "A B C" :=
  ⟨gettext_eq, by decide⟩

/-- **C4.** When the first failing line answers with a status code, the
run halts: it logs the failure with the 1-based line number and the code,
writes no output for the failing line or any later line, and keeps every
earlier line's output. -/
theorem c4_transport_failure_halts (p : Str → Resp) (file : List Str) (i : Nat) (c : Int)
    (h1 : firstFailIdx p file = some i) (hi : i < file.length)
    (h2 : p (query_from_wordlist (tokenize (file.get ⟨i, hi⟩))) = Resp.failure c) :
    (write_passages p file).outcome = Outcome.halted ∧
    LogMsg.requestFailed (i + 1) c ∈ (write_passages p file).log ∧
    (write_passages p file).output = (file.take i).map (lineRecord p) := by
  rcases loop_halt_fail p file 0 i c h1 hi h2 with ⟨hout, hmem⟩
  have hhc : haltCount p file = i := by rw [haltCount, h1]
  refine ⟨hout, ?_, ?_⟩
  · rw [show i + 1 = 0 + i + 1 from by omega]
    exact hmem
  · have h := loop_output p file 0
    rw [write_passages, h, hhc]

/-- Witness for C4: the spec's scenario — line 1 succeeds, line 2 gets
status code 403; the run halts with one output line and the logged
failure names line 2 and code 403. -/
theorem c4_witness :
    firstFailIdx provider403 fileHelloFoo = some 1 ∧
    provider403 (query_from_wordlist (tokenize (fileHelloFoo.get ⟨1, by decide⟩))) =
      Resp.failure 403 ∧
    ((write_passages provider403 fileHelloFoo).outcome = Outcome.halted ∧
     LogMsg.requestFailed 2 403 ∈ (write_passages provider403 fileHelloFoo).log ∧
     (write_passages provider403 fileHelloFoo).output =
       (fileHelloFoo.take 1).map (lineRecord provider403)) := by
  refine ⟨by decide, rfl, ?_⟩
  exact c4_transport_failure_halts provider403 fileHelloFoo 1 403 (by decide) (by decide) rfl

/-- **C5.** When the first failing line's well-formed response tree
contains an `error` node, the run halts: it logs the first error node's
text with the 1-based line number, writes no output for that line, and
the output holds exactly the records of the earlier lines. -/
theorem c5_provider_error_halts (p : Str → Resp) (file : List Str) (i : Nat) (tree : Elem)
    (h1 : firstFailIdx p file = some i) (hi : i < file.length)
    (h2 : p (query_from_wordlist (tokenize (file.get ⟨i, hi⟩))) = Resp.payload (some tree))
    (h3 : str "error" ∈ (iterAll tree).map Elem.tag) :
    (write_passages p file).outcome = Outcome.halted ∧
    LogMsg.searchError (i + 1) (firstErrorText tree) ∈ (write_passages p file).log ∧
    (write_passages p file).output = (file.take i).map (lineRecord p) ∧
    (write_passages p file).output.length = i := by
  rcases loop_halt_error p file 0 i tree h1 hi h2 h3 with ⟨hout, hmem⟩
  have hhc : haltCount p file = i := by rw [haltCount, h1]
  have hup := loop_output p file 0
  refine ⟨hout, ?_, ?_, ?_⟩
  · rw [show i + 1 = 0 + i + 1 from by omega]
    exact hmem
  · rw [write_passages, hup, hhc]
  · rw [write_passages, hup, hhc, List.length_map, List.length_take]
    exact min_eq_left (Nat.le_of_lt hi)

/-- Witness for C5: a provider-reported error (`quota exceeded`) at line
5 of a five-line file halts the run with that message logged for line 5
and exactly 4 output lines written. -/
theorem c5_witness :
    firstFailIdx providerErr5 fileW5 = some 4 ∧
    providerErr5 (query_from_wordlist (tokenize (fileW5.get ⟨4, by decide⟩))) =
      Resp.payload (some errTree) ∧
    str "error" ∈ (iterAll errTree).map Elem.tag ∧
    firstErrorText errTree = some (str "quota exceeded") ∧
    ((write_passages providerErr5 fileW5).outcome = Outcome.halted ∧
     LogMsg.searchError 5 (firstErrorText errTree) ∈ (write_passages providerErr5 fileW5).log ∧
     (write_passages providerErr5 fileW5).output =
       (fileW5.take 4).map (lineRecord providerErr5) ∧
     (write_passages providerErr5 fileW5).output.length = 4) := by
  refine ⟨by decide, rfl, by decide, rfl, ?_⟩
  exact c5_provider_error_halts providerErr5 fileW5 4 errTree (by decide) (by decide) rfl
    (by decide)

/-- **C6.** The Query Builder prefixes every token with `+` and joins
with single spaces: it agrees with the specification's formulation on
every WordGroup, maps `cat dog` to exactly `+cat +dog`, and maps the
empty WordGroup to the empty string. -/
theorem c6_query_builder :
    (∀ wordlist : List Str, query_from_wordlist wordlist = specQuery wordlist) ∧
    query_from_wordlist [str "cat", str "dog"] = str "+cat +dog" ∧
    query_from_wordlist [] = [] := by
  refine ⟨?_, by decide, rfl⟩
  intro ws
  induction ws with
  | nil => rfl
  | cons w vs ih =>
    cases vs with
    | nil => simp [query_from_wordlist, specQuery, List.intercalate]
    | cons v vs' =>
      rw [specQuery, ← ih]
      simp [query_from_wordlist, List.intercalate, List.intersperse]
      rfl

/-- **C7.** Entity unescaping happens before a passage is appended: an
English document whose passage's flattened text is `a&amp;b` (with no
other ampersands) yields exactly the passage `a&b`. -/
theorem c7_entities_unescaped (a b : Str) (ha : '&' ∉ a) (hb : '&' ∉ b) :
    doc_passages (ampDoc a b) = [a ++ '&' :: b] := by
  have hcalc : doc_passages (ampDoc a b) = [htmlUnescape (a ++ str "&amp;" ++ b)] := rfl
  rw [hcalc, htmlUnescape_amp a b ha hb]

/-- Witness for C7: the flattened text `A &amp; B` appears in the output
as `A & B`. -/
theorem c7_witness :
    '&' ∉ str "A " ∧ '&' ∉ str " B" ∧
    doc_passages (ampDoc (str "A ") (str " B")) = [str "A & B"] := by
  refine ⟨by decide, by decide, ?_⟩
  rw [c7_entities_unescaped (str "A ") (str " B") (by decide) (by decide)]
  decide

/-- **C8 (amended).** The Line Reader yields, for every line, the
maximal non-empty space/tab-free runs of the line with leading and
trailing whitespace stripped (Python `str.strip`, not merely
trailing-newline removal); a line with zero tokens yields the empty
WordGroup rather than being skipped. -/
theorem c8_line_reader_amended :
    (∀ file : List Str, get_lines_from_file file =
      file.map (fun line => splitRuns (pyStrip line))) ∧
    get_lines_from_file [str " \t "] = [[]] := by
  constructor
  · intro file
    rw [get_lines_from_file]
    have h : tokenize = fun line => splitRuns (pyStrip line) :=
      funext tokenize_eq_splitRuns
    rw [h]
  · decide

/-- Counterexample for C8 as stated: on the line `a\x0c` (a form feed is
whitespace for `strip` but not a split character), the code yields the
token `a`, while splitting after removing only a trailing newline would
yield `a\x0c`. -/
theorem c8_counterexample :
    get_lines_from_file [str "a\x0c"] ≠ [specTokenize (str "a\x0c")] := by
  have h2 : specTokenize (str "a\x0c") = [str "a\x0c"] := by
    rw [specTokenize, ← reSplit_filter_eq_splitRuns]
    decide
  rw [h2]
  decide

/-- **C9.** The pipeline is deterministic: against extensionally equal
(deterministic) providers, two runs on the same input file produce
byte-identical output. -/
theorem c9_deterministic (p q : Str → Resp) (file : List Str)
    (h : ∀ s : Str, p s = q s) :
    (write_passages p file).output = (write_passages q file).output := by
  have hpq : p = q := funext h
  rw [hpq]

/-- Witness for C9: two runs of the same provider on the same file. -/
theorem c9_witness :
    (∀ s : Str, provider403 s = provider403 s) ∧
    (write_passages provider403 fileHelloFoo).output =
      (write_passages provider403 fileHelloFoo).output :=
  ⟨fun _ => rfl, c9_deterministic provider403 provider403 fileHelloFoo (fun _ => rfl)⟩

/-- **C10.** Candidate nodes are extracted independently: in an English
document, a qualifying node nested inside another qualifying node
appears twice in the result — once as its own passage and once inside
the ancestor's flattened passage, of which its flattened text is a
contiguous segment. -/
theorem c10_nested_candidates (d e c : Elem)
    (hed : e ∈ iterAll d) (hce : c ∈ iterAll e)
    (het : e.tag ∈ [str "title", str "headline", str "passage"])
    (hct : c.tag ∈ [str "title", str "headline", str "passage"])
    (hl : firstLangText d = some (some (str "en"))) :
    htmlUnescape (gettext e) ∈ doc_passages d ∧
    htmlUnescape (gettext c) ∈ doc_passages d ∧
    ∃ u v : Str, gettext e = u ++ gettext c ++ v :=
  ⟨mem_doc_passages hed het hl,
   mem_doc_passages (iterAll_trans d e hed c hce) hct hl,
   gettext_segment e c hce⟩

/-- Witness for C10: `nestedDoc` has a passage inside a title; both
texts land in the document's passages and the inner one is a segment of
the outer one. -/
theorem c10_witness :
    outerTitle ∈ iterAll nestedDoc ∧
    innerPassage ∈ iterAll outerTitle ∧
    outerTitle.tag ∈ [str "title", str "headline", str "passage"] ∧
    innerPassage.tag ∈ [str "title", str "headline", str "passage"] ∧
    firstLangText nestedDoc = some (some (str "en")) ∧
    (htmlUnescape (gettext outerTitle) ∈ doc_passages nestedDoc ∧
     htmlUnescape (gettext innerPassage) ∈ doc_passages nestedDoc ∧
     ∃ u v : Str, gettext outerTitle = u ++ gettext innerPassage ++ v) := by
  have h1 : outerTitle ∈ iterAll nestedDoc :=
    List.Mem.tail _ (List.Mem.tail _ (List.Mem.head _))
  have h2 : innerPassage ∈ iterAll outerTitle :=
    List.Mem.tail _ (List.Mem.head _)
  exact ⟨h1, h2, by decide, by decide, rfl,
    c10_nested_candidates nestedDoc outerTitle innerPassage h1 h2 (by decide) (by decide) rfl⟩

